import Mathlib

/-!
# Verification of `Join` from `kms/cluster.go`

A shallow embedding of the cluster-convergence orchestrator `Join`.
The external collaborators (client construction, `ClusterStatus`,
`AddNode`) are modelled by an oracle `World`: client construction may
fail, and each network call is a function of the single host it is
routed to (routing is set to exactly one host before every status
probe, and to the fixed membership set for the whole convergence
phase, so within one run each call's outcome is determined by its
target host).  `Join` returns the list of observable actions it
performed (routing mutations and network calls, in order) together
with the `error` result (`none` = nil error).
-/

namespace KMS

/-- One entry of `ClusterStatusResponse.NodesUp`; only the `Host`
field is read by `Join`. -/
structure NodeStatus where
  host : String
deriving DecidableEq

/-- The part of the `ClusterStatus` response read by `Join`:
`NodesUp` (structs with a `Host` field) and `NodesDown` (plain
host strings). -/
structure ClusterStatusResponse where
  nodesUp : List NodeStatus
  nodesDown : List String
deriving DecidableEq

/-- Oracle for the external collaborators of `Join`.  `newClientErr`
is the result of `NewClient(conf)`; `clusterStatus h` is the outcome
of a `ClusterStatus` call routed to the single host `h`; `addNode h`
is the outcome of an `AddNode` call naming host `h` (`none` =
success). -/
structure World (ε : Type) where
  newClientErr : Option ε
  clusterStatus : String → Except ε ClusterStatusResponse
  addNode : String → Option ε

/-- Observable actions of `Join`, in program order: mutations of the
client's routing state (`client.lb.Hosts = ...`) and the two kinds of
network call. -/
inductive Event where
  | setHosts (hosts : List String)
  | statusCall (host : String)
  | addNodeCall (host : String)
deriving DecidableEq

/-- `const Scheme = "https://"` from `Join`. -/
def Scheme : String := "https://"

/-- `strings.TrimPrefix(endpoint, Scheme)`: strip the scheme when it
is a prefix, otherwise return the endpoint unchanged. -/
def normalize (e : String) : String :=
  if Scheme.data.isPrefixOf e.data then String.mk (e.data.drop Scheme.data.length) else e

/-- Insertion into the `clusterNodes` set (`clusterNodes[h] = struct{}{}`),
modelled as an insertion-ordered duplicate-free list. -/
def insertNode (s : List String) (h : String) : List String :=
  if h ∈ s then s else s ++ [h]

/-- The two recording loops of the discovery phase: every `NodesUp`
host, then every `NodesDown` host, inserted into `clusterNodes`
verbatim. -/
def recordNodes (st : ClusterStatusResponse) : List String :=
  st.nodesDown.foldl insertNode ((st.nodesUp.map NodeStatus.host).foldl insertNode [])

/-- The discovery loop of `Join`: for each endpoint in order, strip
the scheme, point the routing at that single host, query the cluster
status (propagating errors), skip standalone nodes
(`len(NodesUp)+len(NodesDown) == 1`), and stop at the first
multi-node status, recording its hosts. Returns the events performed
and either the propagated error or the resulting `clusterNodes`. -/
def discover (w : World ε) : List String → List Event × Except ε (List String)
  | [] => ([], Except.ok [])
  | e :: rest =>
    let h := normalize e
    match w.clusterStatus h with
    | Except.error err => ([Event.setHosts [h], Event.statusCall h], Except.error err)
    | Except.ok st =>
      if st.nodesUp.length + st.nodesDown.length = 1 then
        let (evs, r) := discover w rest
        (Event.setHosts [h] :: Event.statusCall h :: evs, r)
      else
        ([Event.setHosts [h], Event.statusCall h], Except.ok (recordNodes st))

/-- The convergence loop of `Join`: for each endpoint in order, strip
the scheme, skip it when it is already in `clusterNodes`, otherwise
issue `AddNode` for it, propagating the first error. -/
def converge (w : World ε) (nodes : List String) : List String → List Event × Option ε
  | [] => ([], none)
  | e :: rest =>
    let h := normalize e
    if h ∈ nodes then converge w nodes rest
    else
      match w.addNode h with
      | some err => ([Event.addNodeCall h], some err)
      | none =>
        let (evs, r) := converge w nodes rest
        (Event.addNodeCall h :: evs, r)

/-- The `clusterNodes` set at the start of the convergence phase:
the discovery result, with the fallback election of the first listed
endpoint when discovery left the set empty. -/
def joinNodes (w : World ε) (es : List String) : Except ε (List String) :=
  match es with
  | [] => Except.ok []
  | e0 :: _ =>
    match (discover w es).2 with
    | Except.error err => Except.error err
    | Except.ok ns => Except.ok (if ns.isEmpty then [normalize e0] else ns)

/-- `Join(ctx, conf)` from `kms/cluster.go`, over the endpoint list
`conf.Endpoints` and the oracle `w`.  Returns the trace of performed
events and the final error result (`none` = nil). -/
def Join (w : World ε) (es : List String) : List Event × Option ε :=
  match es with
  | [] => ([], none)
  | [_] => ([], none)
  | e0 :: e1 :: rest =>
    match w.newClientErr with
    | some err => ([], some err)
    | none =>
      let all := e0 :: e1 :: rest
      match discover w all with
      | (tr, Except.error err) => (tr, some err)
      | (tr, Except.ok ns) =>
        let nodes := if ns.isEmpty then [normalize e0] else ns
        let (tr2, r) := converge w nodes all
        (tr ++ Event.setHosts nodes :: tr2, r)

/-- The `AddNode` targets of a trace, in order. -/
def addCalls : List Event → List String
  | [] => []
  | Event.addNodeCall h :: tr => h :: addCalls tr
  | _ :: tr => addCalls tr

/-- Number of occurrences of a host in a list. -/
def countOcc : List String → String → Nat
  | [], _ => 0
  | x :: t, h => (if x = h then 1 else 0) + countOcc t h

/-- The discovery events for a list of endpoints that are probed and
skipped: a routing mutation and a status call per endpoint. -/
def probeEvents : List String → List Event
  | [] => []
  | e :: rest =>
    Event.setHosts [normalize e] :: Event.statusCall (normalize e) :: probeEvents rest

/-- The convergence loop restricted to the hosts it actually calls
`AddNode` for, in order. -/
def addRun (w : World ε) : List String → List Event × Option ε
  | [] => ([], none)
  | h :: t =>
    match w.addNode h with
    | some err => ([Event.addNodeCall h], some err)
    | none =>
      let (evs, r) := addRun w t
      (Event.addNodeCall h :: evs, r)

/-- The normalized endpoints of `es` that are not in `nodes`, in list
order with multiplicity: exactly the `AddNode` targets of the
convergence loop. -/
def nonMembers (nodes es : List String) : List String :=
  (es.map normalize).filter (fun h => decide (h ∉ nodes))

section Lemmas

variable {ε : Type} {w : World ε}

theorem mem_insertNode (s : List String) (x h : String) :
    h ∈ insertNode s x ↔ h ∈ s ∨ h = x := by
  unfold insertNode
  by_cases hx : x ∈ s
  · simp only [if_pos hx]
    constructor
    · exact Or.inl
    · rintro (hs | rfl)
      · exact hs
      · exact hx
  · simp [if_neg hx]

theorem mem_foldl_insertNode (l init : List String) (h : String) :
    h ∈ l.foldl insertNode init ↔ h ∈ init ∨ h ∈ l := by
  induction l generalizing init with
  | nil => simp
  | cons x t ih =>
    rw [List.foldl_cons, ih, mem_insertNode]
    simp [List.mem_cons, or_assoc, eq_comm]

theorem mem_recordNodes (st : ClusterStatusResponse) (h : String) :
    h ∈ recordNodes st ↔ h ∈ st.nodesUp.map NodeStatus.host ∨ h ∈ st.nodesDown := by
  unfold recordNodes
  rw [mem_foldl_insertNode, mem_foldl_insertNode]
  simp [or_comm]

theorem discover_nil : discover w [] = ([], Except.ok []) := rfl

theorem discover_cons_error {e : String} {rest : List String} {err : ε}
    (h : w.clusterStatus (normalize e) = Except.error err) :
    discover w (e :: rest) =
      ([Event.setHosts [normalize e], Event.statusCall (normalize e)], Except.error err) := by
  simp [discover, h]

theorem discover_cons_standalone {e : String} {rest : List String} {st : ClusterStatusResponse}
    (h : w.clusterStatus (normalize e) = Except.ok st)
    (hone : st.nodesUp.length + st.nodesDown.length = 1) :
    discover w (e :: rest) =
      (Event.setHosts [normalize e] :: Event.statusCall (normalize e) :: (discover w rest).1,
       (discover w rest).2) := by
  rcases hrec : discover w rest with ⟨evs, r⟩
  simp [discover, h, hone, hrec]

theorem discover_cons_multi {e : String} {rest : List String} {st : ClusterStatusResponse}
    (h : w.clusterStatus (normalize e) = Except.ok st)
    (hne : st.nodesUp.length + st.nodesDown.length ≠ 1) :
    discover w (e :: rest) =
      ([Event.setHosts [normalize e], Event.statusCall (normalize e)],
       Except.ok (recordNodes st)) := by
  simp [discover, h, hne]

theorem discover_skip_standalone {pre : List String} (l : List String)
    (hpre : ∀ p ∈ pre, ∃ st, w.clusterStatus (normalize p) = Except.ok st ∧
      st.nodesUp.length + st.nodesDown.length = 1) :
    discover w (pre ++ l) = (probeEvents pre ++ (discover w l).1, (discover w l).2) := by
  induction pre with
  | nil => simp [probeEvents]
  | cons p t ih =>
    obtain ⟨st, hst, hone⟩ := hpre p (List.mem_cons_self p t)
    have ih2 := ih (fun q hq => hpre q (List.mem_cons_of_mem p hq))
    rw [List.cons_append, discover_cons_standalone hst hone, ih2, probeEvents]
    simp

theorem converge_nil {nodes : List String} : converge w nodes [] = ([], none) := rfl

theorem converge_cons_mem {nodes rest : List String} {e : String}
    (h : normalize e ∈ nodes) :
    converge w nodes (e :: rest) = converge w nodes rest := by
  simp [converge, h]

theorem converge_cons_err {nodes rest : List String} {e : String} {err : ε}
    (h : normalize e ∉ nodes) (ha : w.addNode (normalize e) = some err) :
    converge w nodes (e :: rest) = ([Event.addNodeCall (normalize e)], some err) := by
  simp [converge, h, ha]

theorem converge_cons_ok {nodes rest : List String} {e : String}
    (h : normalize e ∉ nodes) (ha : w.addNode (normalize e) = none) :
    converge w nodes (e :: rest) =
      (Event.addNodeCall (normalize e) :: (converge w nodes rest).1,
       (converge w nodes rest).2) := by
  rcases hrec : converge w nodes rest with ⟨evs, r⟩
  simp [converge, h, ha, hrec]

theorem converge_eq_addRun (nodes es : List String) :
    converge w nodes es = addRun w (nonMembers nodes es) := by
  induction es with
  | nil => rfl
  | cons e rest ih =>
    by_cases hm : normalize e ∈ nodes
    · rw [converge_cons_mem hm, ih]
      simp [nonMembers, hm]
    · cases ha : w.addNode (normalize e) with
      | some err =>
        rw [converge_cons_err hm ha]
        simp only [nonMembers, List.map_cons, List.filter_cons, decide_not, hm,
          decide_eq_true_eq]
        simp [nonMembers] at ih ⊢
        simp [hm, addRun, ha]
      | none =>
        rw [converge_cons_ok hm ha]
        rcases hrec : addRun w (nonMembers nodes rest) with ⟨evs, r⟩
        simp only [nonMembers, List.map_cons, List.filter_cons] at hrec ⊢
        simp only [nonMembers] at ih
        simp [hm, addRun, ha, ih, hrec]

theorem addRun_nil : addRun w [] = ([], none) := rfl

theorem addRun_cons_err {t : List String} {x : String} {err : ε}
    (ha : w.addNode x = some err) :
    addRun w (x :: t) = ([Event.addNodeCall x], some err) := by
  simp [addRun, ha]

theorem addRun_cons_ok {t : List String} {x : String} (ha : w.addNode x = none) :
    addRun w (x :: t) = (Event.addNodeCall x :: (addRun w t).1, (addRun w t).2) := by
  rcases hrec : addRun w t with ⟨evs, r⟩
  simp [addRun, ha, hrec]

theorem addRun_all_ok {l : List String} (h : ∀ x ∈ l, w.addNode x = none) :
    addRun w l = (l.map Event.addNodeCall, none) := by
  induction l with
  | nil => rfl
  | cons x t ih =>
    rw [addRun_cons_ok (h x (List.mem_cons_self x t)),
      ih (fun y hy => h y (List.mem_cons_of_mem x hy))]
    simp

theorem addRun_split {done rest : List String} {f : String} {err : ε}
    (hdone : ∀ x ∈ done, w.addNode x = none) (hf : w.addNode f = some err) :
    addRun w (done ++ f :: rest) = ((done ++ [f]).map Event.addNodeCall, some err) := by
  induction done with
  | nil => simp [addRun_cons_err hf]
  | cons x t ih =>
    rw [List.cons_append, addRun_cons_ok (hdone x (List.mem_cons_self x t)),
      ih (fun y hy => hdone y (List.mem_cons_of_mem x hy))]
    simp

theorem addRun_none_addNode {l : List String} (h : (addRun w l).2 = none) :
    ∀ x ∈ l, w.addNode x = none := by
  induction l with
  | nil => simp
  | cons x t ih =>
    cases ha : w.addNode x with
    | some err => rw [addRun_cons_err ha] at h; simp at h
    | none =>
      rw [addRun_cons_ok ha] at h
      intro y hy
      rcases List.mem_cons.mp hy with rfl | hy2
      · exact ha
      · exact ih h y hy2

theorem addRun_none_events {l : List String} (h : (addRun w l).2 = none) :
    (addRun w l).1 = l.map Event.addNodeCall := by
  rw [addRun_all_ok (addRun_none_addNode h)]

theorem addRun_some {l : List String} {err : ε} (h : (addRun w l).2 = some err) :
    ∃ x ∈ l, w.addNode x = some err ∧ Event.addNodeCall x ∈ (addRun w l).1 := by
  induction l with
  | nil => simp [addRun_nil] at h
  | cons x t ih =>
    cases ha : w.addNode x with
    | some er2 =>
      rw [addRun_cons_err ha] at h ⊢
      simp at h
      exact ⟨x, List.mem_cons_self x t, h ▸ ha, by simp⟩
    | none =>
      rw [addRun_cons_ok ha] at h ⊢
      obtain ⟨y, hy, hay, hmem⟩ := ih h
      exact ⟨y, List.mem_cons_of_mem x hy, hay, List.mem_cons_of_mem _ hmem⟩

theorem mem_addRun_events {l : List String} {ev : Event}
    (h : ev ∈ (addRun w l).1) : ∃ x ∈ l, ev = Event.addNodeCall x := by
  induction l with
  | nil => simp [addRun_nil] at h
  | cons x t ih =>
    cases ha : w.addNode x with
    | some er =>
      rw [addRun_cons_err ha] at h
      simp at h
      exact ⟨x, List.mem_cons_self x t, h⟩
    | none =>
      rw [addRun_cons_ok ha] at h
      rcases List.mem_cons.mp h with rfl | h2
      · exact ⟨x, List.mem_cons_self x t, rfl⟩
      · obtain ⟨y, hy, hev⟩ := ih h2
        exact ⟨y, List.mem_cons_of_mem x hy, hev⟩

theorem discover_no_addNodeCall (es : List String) (h : String) :
    Event.addNodeCall h ∉ (discover w es).1 := by
  induction es with
  | nil => simp [discover_nil]
  | cons e rest ih =>
    cases hst : w.clusterStatus (normalize e) with
    | error err => simp [discover_cons_error hst]
    | ok st =>
      by_cases hone : st.nodesUp.length + st.nodesDown.length = 1
      · simp [discover_cons_standalone hst hone, ih]
      · simp [discover_cons_multi hst hone]

theorem discover_ok_statusCall {es : List String} {ns : List String} {h : String}
    (hok : (discover w es).2 = Except.ok ns)
    (hmem : Event.statusCall h ∈ (discover w es).1) :
    ∃ st, w.clusterStatus h = Except.ok st := by
  induction es generalizing ns with
  | nil => simp [discover_nil] at hmem
  | cons e rest ih =>
    cases hst : w.clusterStatus (normalize e) with
    | error err =>
      rw [discover_cons_error hst] at hok
      simp at hok
    | ok st =>
      by_cases hone : st.nodesUp.length + st.nodesDown.length = 1
      · rw [discover_cons_standalone hst hone] at hok hmem
        simp only [List.mem_cons] at hmem
        rcases hmem with heq | heq | hmem2
        · simp at heq
        · rw [Event.statusCall.injEq] at heq
          exact ⟨st, heq ▸ hst⟩
        · exact ih hok hmem2
      · rw [discover_cons_multi hst hone] at hmem
        simp only [List.mem_cons, List.mem_singleton] at hmem
        rcases hmem with heq | heq | hmem2
        · simp at heq
        · rw [Event.statusCall.injEq] at heq
          exact ⟨st, heq ▸ hst⟩
        · simp at hmem2

theorem discover_error_statusCall {es : List String} {err : ε}
    (herr : (discover w es).2 = Except.error err) :
    ∃ h, Event.statusCall h ∈ (discover w es).1 ∧ w.clusterStatus h = Except.error err := by
  induction es with
  | nil => simp [discover_nil] at herr
  | cons e rest ih =>
    cases hst : w.clusterStatus (normalize e) with
    | error er2 =>
      rw [discover_cons_error hst] at herr ⊢
      simp at herr
      exact ⟨normalize e, by simp, herr ▸ hst⟩
    | ok st =>
      by_cases hone : st.nodesUp.length + st.nodesDown.length = 1
      · rw [discover_cons_standalone hst hone] at herr ⊢
        obtain ⟨h, hmem, hcs⟩ := ih herr
        exact ⟨h, by simp [hmem], hcs⟩
      · rw [discover_cons_multi hst hone] at herr
        simp at herr

theorem mem_nonMembers {nodes es : List String} {h : String} :
    h ∈ nonMembers nodes es ↔ h ∉ nodes ∧ ∃ e ∈ es, normalize e = h := by
  simp [nonMembers, and_comm]

theorem converge_events {nodes es : List String} {ev : Event}
    (h : ev ∈ (converge w nodes es).1) :
    ∃ x ∈ nonMembers nodes es, ev = Event.addNodeCall x := by
  rw [converge_eq_addRun] at h
  exact mem_addRun_events h

theorem converge_none_addNode {nodes es : List String} {h : String}
    (hres : (converge w nodes es).2 = none)
    (hmem : Event.addNodeCall h ∈ (converge w nodes es).1) :
    w.addNode h = none := by
  rw [converge_eq_addRun] at hres hmem
  obtain ⟨x, hx, hev⟩ := mem_addRun_events hmem
  rw [Event.addNodeCall.injEq] at hev
  exact hev ▸ addRun_none_addNode hres x hx

theorem converge_none_events {nodes es : List String}
    (hres : (converge w nodes es).2 = none) :
    (converge w nodes es).1 = (nonMembers nodes es).map Event.addNodeCall := by
  rw [converge_eq_addRun] at hres ⊢
  exact addRun_none_events hres

theorem converge_some {nodes es : List String} {err : ε}
    (hres : (converge w nodes es).2 = some err) :
    ∃ x ∈ nonMembers nodes es, w.addNode x = some err ∧
      Event.addNodeCall x ∈ (converge w nodes es).1 := by
  rw [converge_eq_addRun] at hres ⊢
  exact addRun_some hres

theorem converge_none_covers {nodes es : List String} {e : String}
    (hres : (converge w nodes es).2 = none) (he : e ∈ es) (hn : normalize e ∉ nodes) :
    Event.addNodeCall (normalize e) ∈ (converge w nodes es).1 := by
  rw [converge_none_events hres]
  exact List.mem_map_of_mem _ (mem_nonMembers.mpr ⟨hn, e, he, rfl⟩)

theorem Join_small {es : List String} (h : es.length ≤ 1) : Join w es = ([], none) := by
  match es with
  | [] => rfl
  | [e] => rfl
  | e0 :: e1 :: rest => simp at h

theorem Join_clientErr {es : List String} {err : ε} (hlen : 2 ≤ es.length)
    (h : w.newClientErr = some err) : Join w es = ([], some err) := by
  match es with
  | [] => simp at hlen
  | [e] => simp at hlen
  | e0 :: e1 :: rest => simp [Join, h]

theorem Join_discover_error {es : List String} {err : ε} (hlen : 2 ≤ es.length)
    (hcl : w.newClientErr = none) (hd : (discover w es).2 = Except.error err) :
    Join w es = ((discover w es).1, some err) := by
  match es with
  | [] => simp at hlen
  | [e] => simp at hlen
  | e0 :: e1 :: rest =>
    rcases hdp : discover w (e0 :: e1 :: rest) with ⟨tr, dres⟩
    rw [hdp] at hd
    simp only at hd
    subst hd
    simp [Join, hcl, hdp]

theorem joinNodes_ok {es : List String} {ns : List String}
    (h : joinNodes w es = Except.ok ns) (hne : es ≠ []) :
    ∃ e0 rest ns0, es = e0 :: rest ∧ (discover w es).2 = Except.ok ns0 ∧
      ns = (if ns0.isEmpty then [normalize e0] else ns0) := by
  match es with
  | [] => exact absurd rfl hne
  | e0 :: rest =>
    cases hd : (discover w (e0 :: rest)).2 with
    | error er => rw [joinNodes, hd] at h; simp at h
    | ok ns0 =>
      rw [joinNodes, hd] at h
      simp only [Except.ok.injEq] at h
      exact ⟨e0, rest, ns0, rfl, rfl, h.symm⟩

theorem Join_ok {es : List String} {ns : List String} (hlen : 2 ≤ es.length)
    (hcl : w.newClientErr = none) (hns : joinNodes w es = Except.ok ns) :
    Join w es =
      ((discover w es).1 ++ Event.setHosts ns :: (converge w ns es).1,
       (converge w ns es).2) := by
  match es with
  | [] => simp at hlen
  | [e] => simp at hlen
  | e0 :: e1 :: rest =>
    obtain ⟨e0h, rh, ns0, heq, hd, hnsval⟩ := joinNodes_ok hns (by simp)
    rw [List.cons.injEq] at heq
    obtain ⟨he0, -⟩ := heq
    subst he0
    subst hnsval
    rcases hdp : discover w (e0 :: e1 :: rest) with ⟨tr, dres⟩
    rw [hdp] at hd
    simp only at hd
    subst hd
    rcases hcp : converge w (if ns0.isEmpty then [normalize e0] else ns0)
        (e0 :: e1 :: rest) with ⟨tr2, r⟩
    simp only [Join, hcl, hdp, hcp]

theorem probeEvents_append (a b : List String) :
    probeEvents (a ++ b) = probeEvents a ++ probeEvents b := by
  induction a with
  | nil => rfl
  | cons e t ih => simp [probeEvents, ih]

theorem addCalls_append (a b : List Event) :
    addCalls (a ++ b) = addCalls a ++ addCalls b := by
  induction a with
  | nil => rfl
  | cons ev t ih => cases ev <;> simp [addCalls, ih]

theorem addCalls_map (l : List String) :
    addCalls (l.map Event.addNodeCall) = l := by
  induction l with
  | nil => rfl
  | cons x t ih => simp [addCalls, ih]

theorem addCalls_eq_nil {tr : List Event} (h : ∀ x, Event.addNodeCall x ∉ tr) :
    addCalls tr = [] := by
  induction tr with
  | nil => rfl
  | cons ev t ih =>
    have ht : ∀ x, Event.addNodeCall x ∉ t := by
      intro x hx
      exact h x (List.mem_cons_of_mem ev hx)
    cases ev with
    | setHosts hs => simpa [addCalls] using ih ht
    | statusCall h2 => simpa [addCalls] using ih ht
    | addNodeCall h2 => exact absurd (List.mem_cons_self _ t) (h h2)

theorem countOcc_eq_zero {l : List String} {h : String} (hn : h ∉ l) :
    countOcc l h = 0 := by
  induction l with
  | nil => rfl
  | cons x t ih =>
    have hx : x ≠ h := by
      intro hx
      exact hn (hx ▸ List.mem_cons_self x t)
    simp only [countOcc, if_neg hx, Nat.zero_add]
    exact ih (fun hm => hn (List.mem_cons_of_mem x hm))

theorem countOcc_filter {l : List String} {p : String → Bool} {h : String}
    (hp : p h = true) : countOcc (l.filter p) h = countOcc l h := by
  induction l with
  | nil => rfl
  | cons x t ih =>
    by_cases hx : p x = true
    · simp [List.filter_cons, hx, countOcc, ih]
    · have hxh : x ≠ h := by
        intro he
        exact hx (he ▸ hp)
      simp [List.filter_cons, hx, countOcc, if_neg hxh, ih]

theorem countOcc_nonMembers {nodes es : List String} {h : String} (hn : h ∉ nodes) :
    countOcc (nonMembers nodes es) h = countOcc (es.map normalize) h :=
  countOcc_filter (by simp [hn])

end Lemmas

/-- The state of the convergence loop of `Join`, step by step: the
`clusterNodes` set, the endpoints not yet processed, the events
performed so far, and `some r` once the loop has returned with
error result `r`. -/
structure ConvState (ε : Type) where
  nodes : List String
  remaining : List String
  events : List Event
  result : Option (Option ε)

/-- One iteration of the convergence loop of `Join`: finish with nil
error when no endpoint remains; otherwise normalize the next
endpoint, skip it when it is already in `clusterNodes`, and otherwise
issue `AddNode` for it, finishing with its error on failure. -/
def convStep (w : World ε) (s : ConvState ε) : ConvState ε :=
  match s.result with
  | some _ => s
  | none =>
    match s.remaining with
    | [] => ⟨s.nodes, s.remaining, s.events, some none⟩
    | e :: rest =>
      if normalize e ∈ s.nodes then ⟨s.nodes, rest, s.events, none⟩
      else
        match w.addNode (normalize e) with
        | some err =>
          ⟨s.nodes, rest, s.events ++ [Event.addNodeCall (normalize e)], some (some err)⟩
        | none => ⟨s.nodes, rest, s.events ++ [Event.addNodeCall (normalize e)], none⟩

section StepLemmas

variable {ε : Type} {w : World ε}

theorem convStep_nodes (s : ConvState ε) : (convStep w s).nodes = s.nodes := by
  rcases s with ⟨nodes, remaining, events, result⟩
  cases result with
  | some r => rfl
  | none =>
    cases remaining with
    | nil => rfl
    | cons e rest =>
      by_cases hm : normalize e ∈ nodes
      · simp [convStep, hm]
      · cases ha : w.addNode (normalize e) <;> simp [convStep, hm, ha]

theorem convStep_iterate_nodes (s : ConvState ε) (n : ℕ) :
    ((convStep w)^[n] s).nodes = s.nodes := by
  induction n generalizing s with
  | zero => rfl
  | succ n ih => rw [Function.iterate_succ_apply, ih, convStep_nodes]

theorem convStep_finished {s : ConvState ε} {r : Option ε} (h : s.result = some r) :
    convStep w s = s := by
  rcases s with ⟨nodes, remaining, events, result⟩
  simp only at h
  subst h
  rfl

theorem convStep_run (nodes es : List String) (evs : List Event) :
    ((convStep w)^[es.length + 1] (⟨nodes, es, evs, none⟩ : ConvState ε)).events
        = evs ++ (converge w nodes es).1 ∧
    ((convStep w)^[es.length + 1] (⟨nodes, es, evs, none⟩ : ConvState ε)).result
        = some (converge w nodes es).2 := by
  induction es generalizing evs with
  | nil =>
    constructor <;> simp [converge_nil, convStep]
  | cons e rest ih =>
    have hstep : (convStep w)^[(e :: rest).length + 1] (⟨nodes, e :: rest, evs, none⟩ : ConvState ε)
        = (convStep w)^[rest.length + 1] (convStep w ⟨nodes, e :: rest, evs, none⟩) := by
      rw [List.length_cons]
      exact Function.iterate_succ_apply _ _ _
    by_cases hm : normalize e ∈ nodes
    · have h1 : convStep w (⟨nodes, e :: rest, evs, none⟩ : ConvState ε)
          = ⟨nodes, rest, evs, none⟩ := by simp [convStep, hm]
      rw [hstep, h1, converge_cons_mem hm]
      exact ih evs
    · cases ha : w.addNode (normalize e) with
      | some err =>
        have h1 : convStep w (⟨nodes, e :: rest, evs, none⟩ : ConvState ε)
            = ⟨nodes, rest, evs ++ [Event.addNodeCall (normalize e)], some (some err)⟩ := by
          simp [convStep, hm, ha]
        rw [hstep, h1, Function.iterate_fixed (convStep_finished rfl),
          converge_cons_err hm ha]
        constructor <;> simp
      | none =>
        have h1 : convStep w (⟨nodes, e :: rest, evs, none⟩ : ConvState ε)
            = ⟨nodes, rest, evs ++ [Event.addNodeCall (normalize e)], none⟩ := by
          simp [convStep, hm, ha]
        rw [hstep, h1, converge_cons_ok hm ha]
        obtain ⟨h2, h3⟩ := ih (evs ++ [Event.addNodeCall (normalize e)])
        rw [h2, h3]
        constructor <;> simp

end StepLemmas

/-- A world in which every host reports itself as a standalone node
and every call succeeds. -/
def wStandalone : World Unit :=
  ⟨none, fun h => Except.ok ⟨[⟨h⟩], []⟩, fun _ => none⟩

/-- A world in which client construction fails. -/
def wFailClient : World Unit :=
  ⟨some (), fun h => Except.ok ⟨[⟨h⟩], []⟩, fun _ => none⟩

/-- A multi-node status result whose host strings still carry the
URI scheme. -/
def stMulti : ClusterStatusResponse := ⟨[⟨"https://x"⟩], ["https://y"]⟩

/-- A world in which every host reports the multi-node status
`stMulti`. -/
def wVerbatim : World Unit :=
  ⟨none, fun _ => Except.ok stMulti, fun _ => none⟩

/-- A world in which every status query fails. -/
def wStatusErr : World Unit :=
  ⟨none, fun _ => Except.error (), fun _ => none⟩

/-- A world of standalone nodes in which `AddNode` fails exactly for
host `b`. -/
def wAddErr : World Unit :=
  ⟨none, fun h => Except.ok ⟨[⟨h⟩], []⟩, fun h => if h = "b" then some () else none⟩

/-- A world in which every status query reports an empty cluster
(zero up hosts and zero down hosts). -/
def wEmptyStatus : World Unit :=
  ⟨none, fun _ => Except.ok ⟨[], []⟩, fun _ => none⟩

/-- C2: when the endpoints before `e` all report standalone status
(up+down = 1) and `e` is the first whose status reports a total
different from 1, discovery performs exactly the probes of the
endpoints up to and including `e` and returns the up and down hosts
of `e`'s status result as the membership set; no later endpoint is
probed or affects the result. -/
theorem C2_first_multinode_wins (w : World ε) (pre post : List String) (e : String)
    (st : ClusterStatusResponse)
    (hpre : ∀ p ∈ pre, ∃ stp, w.clusterStatus (normalize p) = Except.ok stp ∧
      stp.nodesUp.length + stp.nodesDown.length = 1)
    (he : w.clusterStatus (normalize e) = Except.ok st)
    (hne : st.nodesUp.length + st.nodesDown.length ≠ 1) :
    discover w (pre ++ e :: post) =
      (probeEvents (pre ++ [e]), Except.ok (recordNodes st)) ∧
    ∀ h, h ∈ recordNodes st ↔ h ∈ st.nodesUp.map NodeStatus.host ∨ h ∈ st.nodesDown := by
  constructor
  · rw [discover_skip_standalone (e :: post) hpre, discover_cons_multi he hne,
      probeEvents_append]
    simp [probeEvents]
  · exact mem_recordNodes st

/-- Witness for C2 at a concrete input: with every host reporting
the two-node status `stMulti`, discovery over `["a", "b"]` stops at
`"a"` with `stMulti`'s hosts as the membership set. -/
theorem C2_first_multinode_wins_witness :
    discover wVerbatim ([] ++ "a" :: ["b"]) =
      (probeEvents ([] ++ ["a"]), Except.ok (recordNodes stMulti)) ∧
    ("https://x" ∈ recordNodes stMulti ↔
      "https://x" ∈ stMulti.nodesUp.map NodeStatus.host ∨ "https://x" ∈ stMulti.nodesDown) := by
  have h := C2_first_multinode_wins wVerbatim [] ["b"] "a" stMulti
    (by simp) rfl (by decide)
  exact ⟨h.1, h.2 "https://x"⟩

/-- C4 as stated is false: the code records the status result's
hosts verbatim, without stripping the URI scheme.  At this input the
membership set stores the raw keys `https://x` and `https://y`, not
the normalized `x` and `y` that the claim requires. -/
theorem C4_normalized_recording_counterexample :
    (discover wVerbatim ["a", "b"]).2 = Except.ok ["https://x", "https://y"] ∧
    normalize "https://x" = "x" ∧ normalize "https://y" = "y" ∧
    "x" ∉ ["https://x", "https://y"] ∧ "y" ∉ ["https://x", "https://y"] :=
  ⟨rfl, rfl, rfl, by decide, by decide⟩

/-- C4 (amended): when discovery finds a multi-node cluster, every
up host and every down host of its status result is recorded into
the membership set verbatim, exactly as the status result spells it;
no scheme stripping is applied to status-result hosts. -/
theorem C4_verbatim_recording (w : World ε) (e : String) (post : List String)
    (st : ClusterStatusResponse)
    (he : w.clusterStatus (normalize e) = Except.ok st)
    (hne : st.nodesUp.length + st.nodesDown.length ≠ 1) :
    (discover w (e :: post)).2 = Except.ok (recordNodes st) ∧
    ∀ h, h ∈ recordNodes st ↔ h ∈ st.nodesUp.map NodeStatus.host ∨ h ∈ st.nodesDown := by
  rw [discover_cons_multi he hne]
  exact ⟨rfl, mem_recordNodes st⟩

/-- Witness for the amended C4 at a concrete input: the raw host
`https://y` of `stMulti` is a member of the recorded set. -/
theorem C4_verbatim_recording_witness :
    (discover wVerbatim ["a", "b"]).2 = Except.ok (recordNodes stMulti) ∧
    ("https://y" ∈ recordNodes stMulti ↔
      "https://y" ∈ stMulti.nodesUp.map NodeStatus.host ∨ "https://y" ∈ stMulti.nodesDown) := by
  have h := C4_verbatim_recording wVerbatim "a" ["b"] stMulti rfl (by decide)
  exact ⟨h.1, h.2 "https://y"⟩

/-- C5: when every endpoint's status query reports total membership
1 (all standalone), discovery ends with the empty set and the
fallback election makes the normalized first listed endpoint the
sole member of the membership set. -/
theorem C5_all_standalone_first_elected (w : World ε) (e0 : String) (rest : List String)
    (_hlen : 2 ≤ (e0 :: rest).length)
    (hall : ∀ e ∈ e0 :: rest, ∃ st, w.clusterStatus (normalize e) = Except.ok st ∧
      st.nodesUp.length + st.nodesDown.length = 1) :
    (discover w (e0 :: rest)).2 = Except.ok [] ∧
    joinNodes w (e0 :: rest) = Except.ok [normalize e0] := by
  have hd : (discover w (e0 :: rest)).2 = Except.ok [] := by
    have h := @discover_skip_standalone ε w (e0 :: rest) [] hall
    rw [List.append_nil] at h
    rw [h]
    rfl
  refine ⟨hd, ?_⟩
  rw [joinNodes, hd]
  rfl

/-- Witness for C5 at a concrete input: with both endpoints
standalone, the membership set is exactly the normalized first
endpoint. -/
theorem C5_all_standalone_first_elected_witness :
    (discover wStandalone ["a", "b"]).2 = Except.ok [] ∧
    joinNodes wStandalone ["a", "b"] = Except.ok [normalize "a"] :=
  C5_all_standalone_first_elected wStandalone "a" ["b"] (by decide)
    (fun e _ => ⟨⟨[⟨normalize e⟩], []⟩, rfl, rfl⟩)

/-- C6: for an endpoint list of length at most 1, `Join` returns nil
immediately, with an empty event trace: no routing mutation, no
`ClusterStatus` call, no `AddNode` call, and no dependence on the
client (the result is the same for every world, including one whose
client construction fails). -/
theorem C6_trivial_list_no_calls (w : World ε) (es : List String)
    (h : es.length ≤ 1) : Join w es = ([], none) :=
  Join_small h

/-- Witness for C6 at a concrete input: even when client
construction would fail, `Join` on a single endpoint returns nil
with no events. -/
theorem C6_trivial_list_no_calls_witness :
    Join wFailClient ["a"] = ([], none) :=
  C6_trivial_list_no_calls wFailClient ["a"] (by decide)

/-- C7: when the endpoints before `k` all report standalone status
and the status query for `k` fails, `Join` returns exactly that
error and its trace contains no `AddNode` call. -/
theorem C7_status_error_no_addnode (w : World ε) (pre post : List String) (k : String)
    (err : ε)
    (hlen : 2 ≤ (pre ++ k :: post).length)
    (hcl : w.newClientErr = none)
    (hpre : ∀ p ∈ pre, ∃ st, w.clusterStatus (normalize p) = Except.ok st ∧
      st.nodesUp.length + st.nodesDown.length = 1)
    (hk : w.clusterStatus (normalize k) = Except.error err) :
    (Join w (pre ++ k :: post)).2 = some err ∧
    ∀ h, Event.addNodeCall h ∉ (Join w (pre ++ k :: post)).1 := by
  have hd : (discover w (pre ++ k :: post)).2 = Except.error err := by
    rw [discover_skip_standalone (k :: post) hpre, discover_cons_error hk]
  rw [Join_discover_error hlen hcl hd]
  exact ⟨rfl, fun h => discover_no_addNodeCall (pre ++ k :: post) h⟩

/-- Witness for C7 at a concrete input: a failing status query on
the first endpoint aborts `Join` with that error and no `AddNode`
call is issued. -/
theorem C7_status_error_no_addnode_witness :
    (Join wStatusErr ([] ++ "a" :: ["b"])).2 = some () ∧
    Event.addNodeCall "b" ∉ (Join wStatusErr ([] ++ "a" :: ["b"])).1 := by
  have h := C7_status_error_no_addnode wStatusErr [] ["b"] "a" ()
    (by decide) rfl (by simp) rfl
  exact ⟨h.1, h.2 "b"⟩

/-- C3 as stated is false on lists with duplicate endpoints: here the
endpoint `b` is absent from the final membership set `["a"]`, yet it
receives two `AddNode` calls (one per occurrence in the list), not
exactly one. -/
theorem C3_exactly_one_addnode_counterexample :
    (Join wStandalone ["a", "b", "b"]).2 = none ∧
    joinNodes wStandalone ["a", "b", "b"] = Except.ok ["a"] ∧
    normalize "b" = "b" ∧ "b" ∉ ["a"] ∧
    countOcc (addCalls (Join wStandalone ["a", "b", "b"]).1) "b" = 2 :=
  ⟨rfl, rfl, rfl, by decide, rfl⟩

/-- C3 (amended): on a run of `Join` that returns nil, a host in the
final membership set receives no `AddNode` call, and a host absent
from it receives one `AddNode` call per occurrence of its endpoint
in the list — exactly one when the endpoint is listed once. -/
theorem C3_addnode_per_occurrence (w : World ε) (es ns : List String) (h : String)
    (hlen : 2 ≤ es.length) (hns : joinNodes w es = Except.ok ns)
    (hok : (Join w es).2 = none) :
    countOcc (addCalls (Join w es).1) h =
      if h ∈ ns then 0 else countOcc (es.map normalize) h := by
  have hcl : w.newClientErr = none := by
    cases hclc : w.newClientErr with
    | none => rfl
    | some err =>
      have hJ := Join_clientErr hlen hclc
      rw [hJ] at hok
      simp at hok
  have hJ := Join_ok hlen hcl hns
  have htr : (Join w es).1 =
      (discover w es).1 ++ Event.setHosts ns :: (converge w ns es).1 := by rw [hJ]
  have hres : (Join w es).2 = (converge w ns es).2 := by rw [hJ]
  rw [hres] at hok
  rw [htr, addCalls_append, addCalls_eq_nil (fun x => discover_no_addNodeCall es x),
    List.nil_append]
  have hsh : addCalls (Event.setHosts ns :: (converge w ns es).1)
      = addCalls (converge w ns es).1 := rfl
  rw [hsh, converge_none_events hok, addCalls_map]
  by_cases hm : h ∈ ns
  · rw [if_pos hm]
    exact countOcc_eq_zero (fun hmem => (mem_nonMembers.mp hmem).1 hm)
  · rw [if_neg hm]
    exact countOcc_nonMembers hm

/-- Witness for the amended C3 at a concrete input: on the duplicate
list, the absent host `b` receives one call per occurrence. -/
theorem C3_addnode_per_occurrence_witness :
    countOcc (addCalls (Join wStandalone ["a", "b", "b"]).1) "b" =
      if "b" ∈ ["a"] then 0
      else countOcc ((["a", "b", "b"] : List String).map normalize) "b" :=
  C3_addnode_per_occurrence wStandalone ["a", "b", "b"] ["a"] "b" (by decide) rfl rfl

/-- C8: when the non-member endpoints (in list order, normalized)
split as `done ++ f :: rest` with every `AddNode` before `f`
succeeding and the one for `f` failing, `Join` returns exactly `f`'s
error, and the `AddNode` calls issued are exactly those for `done`
followed by the one for `f` — earlier calls remain issued, later
non-members get none. -/
theorem C8_addnode_error_fail_fast (w : World ε) (es ns done rest : List String)
    (f : String) (err : ε)
    (hlen : 2 ≤ es.length) (hcl : w.newClientErr = none)
    (hns : joinNodes w es = Except.ok ns)
    (hsplit : nonMembers ns es = done ++ f :: rest)
    (hdone : ∀ x ∈ done, w.addNode x = none)
    (hf : w.addNode f = some err) :
    (Join w es).2 = some err ∧ addCalls (Join w es).1 = done ++ [f] := by
  have hJ := Join_ok hlen hcl hns
  have hconv : converge w ns es = ((done ++ [f]).map Event.addNodeCall, some err) := by
    rw [converge_eq_addRun, hsplit]
    exact addRun_split hdone hf
  have h2 : (Join w es).2 = some err := by rw [hJ, hconv]
  have h1 : (Join w es).1 = (discover w es).1 ++
      Event.setHosts ns :: (done ++ [f]).map Event.addNodeCall := by
    rw [hJ, hconv]
  refine ⟨h2, ?_⟩
  rw [h1, addCalls_append, addCalls_eq_nil (fun x => discover_no_addNodeCall es x),
    List.nil_append]
  have hsh : addCalls (Event.setHosts ns :: (done ++ [f]).map Event.addNodeCall)
      = addCalls ((done ++ [f]).map Event.addNodeCall) := rfl
  rw [hsh, addCalls_map]

/-- Witness for C8 at a concrete input: with non-members
`["c", "b", "d"]` and `AddNode` failing exactly on `b`, `Join`
returns that error having called `AddNode` for `c` and `b` only. -/
theorem C8_addnode_error_fail_fast_witness :
    (Join wAddErr ["a", "c", "b", "d"]).2 = some () ∧
    addCalls (Join wAddErr ["a", "c", "b", "d"]).1 = ["c"] ++ ["b"] :=
  C8_addnode_error_fail_fast wAddErr ["a", "c", "b", "d"] ["a"] ["c"] ["d"] "b" ()
    (by decide) rfl rfl (by decide) (by decide) rfl

/-- C9: once discovery has completed with membership set `ns`
(fallback election included), the convergence loop never changes the
in-memory membership set: after any number of steps of the loop the
set is still `ns`, while the loop itself performs exactly the events
and returns exactly the result of `Join`'s convergence phase. -/
theorem C9_membership_immutable_during_convergence (w : World ε) (es ns : List String)
    (n : ℕ) (_hns : joinNodes w es = Except.ok ns) :
    ((convStep w)^[n] (⟨ns, es, [], none⟩ : ConvState ε)).nodes = ns ∧
    ((convStep w)^[es.length + 1] (⟨ns, es, [], none⟩ : ConvState ε)).events
        = (converge w ns es).1 ∧
    ((convStep w)^[es.length + 1] (⟨ns, es, [], none⟩ : ConvState ε)).result
        = some (converge w ns es).2 := by
  obtain ⟨h2, h3⟩ := @convStep_run ε w ns es []
  exact ⟨convStep_iterate_nodes _ n, by simpa using h2, h3⟩

/-- Witness for C9 at a concrete input: after one step of the
convergence loop the membership set is unchanged. -/
theorem C9_membership_immutable_during_convergence_witness :
    ((convStep wStandalone)^[1] (⟨["a"], ["a", "b"], [], none⟩ : ConvState Unit)).nodes
        = ["a"] ∧
    ((convStep wStandalone)^[(["a", "b"] : List String).length + 1]
        (⟨["a"], ["a", "b"], [], none⟩ : ConvState Unit)).events
        = (converge wStandalone ["a"] ["a", "b"]).1 ∧
    ((convStep wStandalone)^[(["a", "b"] : List String).length + 1]
        (⟨["a"], ["a", "b"], [], none⟩ : ConvState Unit)).result
        = some (converge wStandalone ["a"] ["a", "b"]).2 :=
  C9_membership_immutable_during_convergence wStandalone ["a", "b"] ["a"] 1 rfl

/-- C10: when the first status result that ends discovery reports
zero total hosts, discovery stops there with the membership set
still empty, the fallback election makes the normalized first listed
endpoint the sole member, and on a successful run every supplied
endpoint whose normalized host differs from the first's receives an
`AddNode` call. -/
theorem C10_empty_status_fallback (w : World ε) (e0 : String) (rest pre post : List String)
    (k : String)
    (hes : e0 :: rest = pre ++ k :: post)
    (hlen : 2 ≤ (e0 :: rest).length)
    (hcl : w.newClientErr = none)
    (hpre : ∀ p ∈ pre, ∃ st, w.clusterStatus (normalize p) = Except.ok st ∧
      st.nodesUp.length + st.nodesDown.length = 1)
    (hk : w.clusterStatus (normalize k) = Except.ok ⟨[], []⟩) :
    (discover w (e0 :: rest)).2 = Except.ok [] ∧
    joinNodes w (e0 :: rest) = Except.ok [normalize e0] ∧
    ((Join w (e0 :: rest)).2 = none →
      ∀ e ∈ e0 :: rest, normalize e ≠ normalize e0 →
        Event.addNodeCall (normalize e) ∈ (Join w (e0 :: rest)).1) := by
  have hd : (discover w (e0 :: rest)).2 = Except.ok ([] : List String) := by
    rw [hes, discover_skip_standalone (k :: post) hpre,
      discover_cons_multi hk (by decide)]
    rfl
  have hjn : joinNodes w (e0 :: rest) = Except.ok [normalize e0] := by
    rw [joinNodes, hd]
    rfl
  refine ⟨hd, hjn, ?_⟩
  intro hok e he hne
  have hJ := Join_ok hlen hcl hjn
  have htr : (Join w (e0 :: rest)).1 =
      (discover w (e0 :: rest)).1 ++ Event.setHosts [normalize e0] ::
        (converge w [normalize e0] (e0 :: rest)).1 := by rw [hJ]
  have hres : (Join w (e0 :: rest)).2
      = (converge w [normalize e0] (e0 :: rest)).2 := by rw [hJ]
  rw [hres] at hok
  have hmem := converge_none_covers hok he (by simpa using hne)
  rw [htr]
  exact List.mem_append_right _ (List.mem_cons_of_mem _ hmem)

/-- Witness for C10 at a concrete input: the first endpoint reports
an empty status, becomes the elected seed, and the second endpoint
receives an `AddNode` call. -/
theorem C10_empty_status_fallback_witness :
    (discover wEmptyStatus ["a", "b"]).2 = Except.ok [] ∧
    joinNodes wEmptyStatus ["a", "b"] = Except.ok [normalize "a"] ∧
    Event.addNodeCall (normalize "b") ∈ (Join wEmptyStatus ["a", "b"]).1 := by
  have h := C10_empty_status_fallback wEmptyStatus "a" ["b"] [] ["b"] "a" rfl
    (by decide) rfl (by simp) rfl
  exact ⟨h.1, h.2.1, h.2.2 rfl "b" (by decide) (by decide)⟩

/-- C1: the error returned by `Join` is non-nil exactly when client
construction failed or some performed network call (a status query
or an `AddNode` call in the trace) failed; any returned error is one
of those underlying errors, propagated unmodified; and when `Join`
returns nil on a non-trivial list, every supplied endpoint whose
normalized host is absent from the membership set has been issued an
`AddNode` call that succeeded. -/
theorem C1_error_iff_failure (w : World ε) (es : List String) :
    ((Join w es).2.isSome = true ↔
      2 ≤ es.length ∧
        (w.newClientErr.isSome = true ∨
          (∃ h er, Event.statusCall h ∈ (Join w es).1 ∧
            w.clusterStatus h = Except.error er) ∨
          (∃ h er, Event.addNodeCall h ∈ (Join w es).1 ∧ w.addNode h = some er))) ∧
    (∀ err, (Join w es).2 = some err →
      w.newClientErr = some err ∨
        (∃ h, Event.statusCall h ∈ (Join w es).1 ∧
          w.clusterStatus h = Except.error err) ∨
        (∃ h, Event.addNodeCall h ∈ (Join w es).1 ∧ w.addNode h = some err)) ∧
    (2 ≤ es.length → (Join w es).2 = none →
      ∃ ns, joinNodes w es = Except.ok ns ∧
        ∀ e ∈ es, normalize e ∉ ns →
          Event.addNodeCall (normalize e) ∈ (Join w es).1 ∧
            w.addNode (normalize e) = none) := by
  by_cases hlen : 2 ≤ es.length
  · cases hcl : w.newClientErr with
    | some err =>
      have hJ := Join_clientErr hlen hcl
      have hres : (Join w es).2 = some err := by rw [hJ]
      refine ⟨?_, ?_, ?_⟩
      · rw [hres]
        simp only [Option.isSome_some, true_iff]
        refine ⟨hlen, Or.inl ?_⟩
        simp
      · intro er her
        rw [hres, Option.some.injEq] at her
        subst her
        exact Or.inl rfl
      · intro _ hnone
        rw [hres] at hnone
        simp at hnone
    | none =>
      cases hd : (discover w es).2 with
      | error err =>
        have hJ := Join_discover_error hlen hcl hd
        have htr : (Join w es).1 = (discover w es).1 := by rw [hJ]
        have hres : (Join w es).2 = some err := by rw [hJ]
        obtain ⟨h0, hmem0, herr0⟩ := discover_error_statusCall hd
        have hmemJ : Event.statusCall h0 ∈ (Join w es).1 := by
          rw [htr]
          exact hmem0
        refine ⟨?_, ?_, ?_⟩
        · rw [hres]
          simp only [Option.isSome_some, true_iff]
          exact ⟨hlen, Or.inr (Or.inl ⟨h0, err, hmemJ, herr0⟩)⟩
        · intro er her
          rw [hres, Option.some.injEq] at her
          subst her
          exact Or.inr (Or.inl ⟨h0, hmemJ, herr0⟩)
        · intro _ hnone
          rw [hres] at hnone
          simp at hnone
      | ok ns0 =>
        obtain ⟨e0, rest, hes⟩ : ∃ e0 rest, es = e0 :: rest := by
          cases es with
          | nil => simp at hlen
          | cons a b => exact ⟨a, b, rfl⟩
        subst hes
        have hns : joinNodes w (e0 :: rest)
            = Except.ok (if ns0.isEmpty then [normalize e0] else ns0) := by
          rw [joinNodes, hd]
        set ns := if ns0.isEmpty then [normalize e0] else ns0 with hnsdef
        have hJ := Join_ok hlen hcl hns
        have htr : (Join w (e0 :: rest)).1 =
            (discover w (e0 :: rest)).1 ++ Event.setHosts ns ::
              (converge w ns (e0 :: rest)).1 := by rw [hJ]
        have hres : (Join w (e0 :: rest)).2
            = (converge w ns (e0 :: rest)).2 := by rw [hJ]
        cases hc : (converge w ns (e0 :: rest)).2 with
        | some err =>
          obtain ⟨x, hxnm, hxadd, hxmem⟩ := converge_some hc
          have hxtr : Event.addNodeCall x ∈ (Join w (e0 :: rest)).1 := by
            rw [htr]
            exact List.mem_append_right _ (List.mem_cons_of_mem _ hxmem)
          refine ⟨?_, ?_, ?_⟩
          · rw [hres, hc]
            simp only [Option.isSome_some, true_iff]
            exact ⟨hlen, Or.inr (Or.inr ⟨x, err, hxtr, hxadd⟩)⟩
          · intro er her
            rw [hres, hc, Option.some.injEq] at her
            subst her
            exact Or.inr (Or.inr ⟨x, hxtr, hxadd⟩)
          · intro _ hnone
            rw [hres, hc] at hnone
            simp at hnone
        | none =>
          refine ⟨?_, ?_, ?_⟩
          · rw [hres, hc]
            constructor
            · intro hbad
              simp at hbad
            · rintro ⟨-, hbad | ⟨h, er, hmem, herr⟩ | ⟨h, er, hmem, hadd⟩⟩
              · simp at hbad
              · rw [htr] at hmem
                rcases List.mem_append.mp hmem with hmem1 | hmem2
                · obtain ⟨st, hok2⟩ := discover_ok_statusCall hd hmem1
                  rw [hok2] at herr
                  exact Except.noConfusion herr
                · rcases List.mem_cons.mp hmem2 with heq | hmem3
                  · exact Event.noConfusion heq
                  · obtain ⟨x, -, hx⟩ := converge_events hmem3
                    exact Event.noConfusion hx
              · rw [htr] at hmem
                rcases List.mem_append.mp hmem with hmem1 | hmem2
                · exact absurd hmem1 (discover_no_addNodeCall _ h)
                · rcases List.mem_cons.mp hmem2 with heq | hmem3
                  · exact Event.noConfusion heq
                  · have hnone2 := converge_none_addNode hc hmem3
                    rw [hnone2] at hadd
                    exact Option.noConfusion hadd
          · intro er her
            rw [hres, hc] at her
            simp at her
          · intro _ _
            refine ⟨ns, hns, ?_⟩
            intro e he hnm
            have hmemc := converge_none_covers hc he hnm
            constructor
            · rw [htr]
              exact List.mem_append_right _ (List.mem_cons_of_mem _ hmemc)
            · exact converge_none_addNode hc hmemc
  · have hsmall : es.length ≤ 1 := by omega
    have hJ : Join w es = ([], none) := Join_small hsmall
    have hres : (Join w es).2 = none := by rw [hJ]
    refine ⟨?_, ?_, ?_⟩
    · rw [hres]
      constructor
      · intro hbad
        simp at hbad
      · rintro ⟨h2, -⟩
        exact absurd h2 hlen
    · intro er her
      rw [hres] at her
      simp at her
    · intro h2 _
      exact absurd h2 hlen

/-- Witness for C1 at a concrete input: the error returned by `Join`
when every status query fails is the underlying status-call error of
a probed host, unmodified. -/
theorem C1_error_iff_failure_witness :
    wStatusErr.newClientErr = some () ∨
      (∃ h, Event.statusCall h ∈ (Join wStatusErr ["a", "b"]).1 ∧
        wStatusErr.clusterStatus h = Except.error ()) ∨
      (∃ h, Event.addNodeCall h ∈ (Join wStatusErr ["a", "b"]).1 ∧
        wStatusErr.addNode h = some ()) :=
  (C1_error_iff_failure wStatusErr ["a", "b"]).2.1 () rfl

end KMS
